import Mathlib

/-!
Verification development for the staticjinja incremental-rebuild core:
the dependency graph (`dep_graph.py`), the source classifier (`sources.py`)
and the change reactor (`reloader.py`).

Vertices are file paths, modelled as `String`. Python dictionaries are
modelled as association lists `List (String × List String)` in insertion
order; Python sets are modelled as lists, with set-equality comparisons
(`eqAsSet`) where the source compares sets, and the (unspecified) iteration
order of a Python set instantiated by the list order. Python `KeyError`
and `ValueError` are modelled with `PyErr`; functions that can raise
return `Except PyErr _` or a `_ × Bool` pair carrying the state reached
when the exception escapes mid-mutation. `os.path.sep` is the POSIX "/".
-/

namespace StaticJinja

/-- Python exceptions surfaced by the modelled code. -/
inductive PyErr where
  | valueError : PyErr
  | keyError : String → PyErr
deriving DecidableEq, Repr

instance {ε α : Type} [DecidableEq ε] [DecidableEq α] : DecidableEq (Except ε α) :=
  fun a b =>
    match a, b with
    | Except.ok x, Except.ok y =>
      if h : x = y then isTrue (by rw [h]) else isFalse (by intro hc; cases hc; exact h rfl)
    | Except.error x, Except.error y =>
      if h : x = y then isTrue (by rw [h]) else isFalse (by intro hc; cases hc; exact h rfl)
    | Except.ok _, Except.error _ => isFalse (by intro hc; cases hc)
    | Except.error _, Except.ok _ => isFalse (by intro hc; cases hc)

/-- Adjacency mapping: a Python dict from vertex to set of vertices. -/
abbrev AdjList := List (String × List String)

/-- Dict lookup `m[k]` returning `none` on a missing key (first matching
entry, as in a Python dict which holds each key once). -/
def lookupA (m : AdjList) (k : String) : Option (List String) :=
  match m with
  | [] => none
  | (k', v) :: rest => if k' = k then some v else lookupA rest k

/-- Python `m.get(k, set())`. -/
def lookupD (m : AdjList) (k : String) : List String :=
  (lookupA m k).getD []

/-- Python `k in m` for a dict. -/
def isKey (m : AdjList) (k : String) : Bool :=
  (lookupA m k).isSome

/-- Dict assignment `m[k] = v`: replaces the value of an existing key in
place, otherwise appends the new key (Python dicts keep insertion order). -/
def setValA (m : AdjList) (k : String) (v : List String) : AdjList :=
  match m with
  | [] => [(k, v)]
  | (k', v') :: rest => if k' = k then (k, v) :: rest else (k', v') :: setValA rest k v

/-- Python `set` equality between two lists viewed as sets. -/
def eqAsSet (l1 l2 : List String) : Bool :=
  l1.all (fun x => decide (x ∈ l2)) && l2.all (fun x => decide (x ∈ l1))

/-- The keys of the dict are pairwise distinct (always true of a real
Python dict; stated as a hypothesis because the model is a plain list). -/
def keysNodup (m : AdjList) : Prop :=
  (m.map Prod.fst).Nodup

/-- `DepGraph` from `dep_graph.py`: the `parents` mapping (files a vertex
depends on) and the `children` mapping (files depending on the vertex). -/
structure DepGraph where
  parents : AdjList
  children : AdjList
deriving DecidableEq, Repr

/-- The loop `for d in ds: m[d].add(f)` over a dict of sets `m`: adds `f`
to the set at each key `d`, raising `KeyError` (returning `false`, with
the state reached so far) if some `d` is not a key. Used by
`DepGraph.from_parents` and by the second loop of `DepGraph.update`. -/
def addAllM (m : AdjList) (f : String) (ds : List String) : AdjList × Bool :=
  match ds with
  | [] => (m, true)
  | d :: rest =>
    match lookupA m d with
    | none => (m, false)
    | some s => addAllM (setValA m d (if f ∈ s then s else s ++ [f])) f rest

/-- The loop `for p in ds: m[p].remove(v)`: removes `v` from the set at
each key `p`; `KeyError` (returning `false` with the partial state) if
`p` is not a key or `v` is not in its set, as for Python `set.remove`. -/
def removeAllM (m : AdjList) (v : String) (ds : List String) : AdjList × Bool :=
  match ds with
  | [] => (m, true)
  | p :: rest =>
    match lookupA m p with
    | none => (m, false)
    | some s =>
      if v ∈ s then removeAllM (setValA m p (s.filter (fun x => decide (x ≠ v)))) v rest
      else (m, false)

/-- The second phase of `DepGraph.from_parents`: children maps start
empty, then every entry `(f, ds)` of `parents` adds `f` to `children[d]`
for each `d ∈ ds`; aborts (the `KeyError` propagates, no graph is made)
when a dependency is not a key. -/
def buildChildren (m : AdjList) (entries : List (String × List String)) : Option AdjList :=
  match entries with
  | [] => some m
  | (f, ds) :: rest =>
    match addAllM m f ds with
    | (_, false) => none
    | (m', true) => buildChildren m' rest

/-- `DepGraph.from_parents`: derive the `children` mapping from a complete
`parents` mapping; `none` models the `KeyError` when a value references a
vertex that is not a key. -/
def fromParents (ps : List (String × List String)) : Option DepGraph :=
  (buildChildren (ps.map (fun e => (e.1, ([] : List String)))) ps).map
    (fun ch => DepGraph.mk ps ch)

/-- `DepGraph.update`: replace the parent set of `v` by `newP`. Faithful
to the source: compute `old_parents = parents.get(v, set())`; if the new
set equals the old one, do nothing; otherwise remove `v` from
`children[p]` for every lost parent, add it for every gained parent, and
only then assign `parents[v] = newP`. The `Bool` is `false` when a
`KeyError` escapes, in which case the returned graph is the state the
mutations had reached (Python leaves the object in that state). -/
def update (g : DepGraph) (v : String) (newP : List String) : DepGraph × Bool :=
  let oldP := lookupD g.parents v
  if eqAsSet newP oldP = true then (g, true)
  else
    let lost := oldP.filter (fun p => decide (¬ p ∈ newP))
    let gained := newP.filter (fun p => decide (¬ p ∈ oldP))
    match removeAllM g.children v lost with
    | (ch1, false) => ({ g with children := ch1 }, false)
    | (ch1, true) =>
      match addAllM ch1 v gained with
      | (ch2, false) => ({ g with children := ch2 }, false)
      | (ch2, true) => (DepGraph.mk (setValA g.parents v newP) ch2, true)

/-- State of the explicit-stack depth-first traversal of
`DepGraph.connected_components`: the visited set `seen`, the stack of
sibling iterators (heads are the not-yet-consumed remainders, innermost
iterator first), and the vertices yielded so far in order. -/
structure DfsState where
  seen : List String
  stack : List (List String)
  out : List String
deriving DecidableEq, Repr

/-- One Python `while stack:` loop of `connected_components`, run for
`fuel` iterations (the termination argument is proved, not assumed):
look at the top iterator; an exhausted iterator is popped; the next child
is skipped when already seen, otherwise yielded, marked seen and its own
iterator `iter(adjacency[child])` pushed — which raises `KeyError` when
the child is not a key of the adjacency dict. -/
def dfsRun (adj : AdjList) : Nat → DfsState → Except PyErr DfsState
  | 0, s => Except.ok s
  | fuel + 1, s =>
    match s.stack with
    | [] => Except.ok s
    | [] :: rest => dfsRun adj fuel (DfsState.mk s.seen rest s.out)
    | (c :: cs) :: rest =>
      if c ∈ s.seen then dfsRun adj fuel (DfsState.mk s.seen (cs :: rest) s.out)
      else
        match lookupA adj c with
        | none => Except.error (PyErr.keyError c)
        | some l => dfsRun adj fuel (DfsState.mk (c :: s.seen) (l :: cs :: rest) (s.out ++ [c]))

/-- The body of `connected_components` once the adjacency dict is chosen:
`seen = {start}`, `stack = [iter(adjacency[start])]` (raising `KeyError`
when `start` is not a key), then the loop. -/
def ccFrom (adj : AdjList) (start : String) (fuel : Nat) : Except PyErr DfsState :=
  match lookupA adj start with
  | none => Except.error (PyErr.keyError start)
  | some l => dfsRun adj fuel (DfsState.mk [start] [l] [])

/-- The body of `DepGraph.connected_components(direction, start)`:
direction selects the adjacency dict, any other direction raises
`ValueError` before anything else happens. -/
def connectedComponents (g : DepGraph) (dir : String) (start : String) (fuel : Nat) :
    Except PyErr DfsState :=
  if dir = "descendants" then ccFrom g.children start fuel
  else if dir = "ancestors" then ccFrom g.parents start fuel
  else Except.error PyErr.valueError

/-- `DepGraph.get_descendants`. -/
def getDescendants (g : DepGraph) (filename : String) (fuel : Nat) : Except PyErr DfsState :=
  connectedComponents g "descendants" filename fuel

/-- A Python generator object returned by calling the generator function
`connected_components`: calling a generator function executes none of its
body — it only packages the arguments, to be run at first iteration. -/
structure CCGen where
  direction : String
  start : String
deriving DecidableEq, Repr

/-- Calling `g.connected_components(direction, start)`: always returns a
generator object, whatever the direction (the body, including the
direction check, has not run yet). -/
def mkConnectedComponents (dir : String) (start : String) : CCGen :=
  CCGen.mk dir start

/-- Iterating the generator: only now does the body run, so only now can
the `ValueError` for a bad direction (or a `KeyError`) be raised. -/
def consumeCC (g : DepGraph) (gen : CCGen) (fuel : Nat) : Except PyErr DfsState :=
  connectedComponents g gen.direction gen.start fuel

/-! ## Source classifier (`sources.py`) -/

/-- The configuration the classifier predicates close over:
`staticpaths` and `datapaths`, each `None` or a list of path strings
relative to the search path. -/
structure SJConfig where
  staticpaths : Option (List String)
  datapaths : Option (List String)
deriving DecidableEq, Repr

/-- Python `f.startswith(p)`: plain character-string test; modelled on
the underlying character lists because the comparison is pure text, with
no path-separator awareness. -/
def strStarts (f p : String) : Bool :=
  p.data.isPrefixOf f.data

/-- `os.path.sep` on POSIX. -/
def pathSepC : Char := '/'

/-- Python `s.split(sep)` for a one-character separator, on character
lists: `split` always yields at least one (possibly empty) segment. -/
def splitSep (sep : Char) : List Char → List (List Char)
  | [] => [[]]
  | c :: rest =>
    match splitSep sep rest with
    | [] => [[c]]
    | h :: t => if c = sep then [] :: h :: t else (c :: h) :: t

/-- A segment `x.startswith(pre)` for a one-character `pre`. -/
def segStarts (pre : Char) (seg : List Char) : Bool :=
  match seg with
  | [] => false
  | d :: _ => d = pre

/-- `Sources.is_static`: `False` when `staticpaths is None`, else true
iff the filename starts (as a character string) with one of the
configured static paths. -/
def isStaticFile (cfg : SJConfig) (f : String) : Bool :=
  match cfg.staticpaths with
  | none => false
  | some l => l.any (fun p => strStarts f p)

/-- `Sources.is_data`: same test against `datapaths`. -/
def isDataFile (cfg : SJConfig) (f : String) : Bool :=
  match cfg.datapaths with
  | none => false
  | some l => l.any (fun p => strStarts f p)

/-- `Sources.is_partial`: some segment of the path starts with an
underscore. -/
def isPartialFile (f : String) : Bool :=
  (splitSep pathSepC f.data).any (fun seg => segStarts '_' seg)

/-- `Sources.is_ignored`: some segment of the path starts with a dot. -/
def isIgnoredFile (f : String) : Bool :=
  (splitSep pathSepC f.data).any (fun seg => segStarts '.' seg)

/-- `Sources.is_template`: the fallback role, with the source's early
returns in their exact order. -/
def isTemplateFile (cfg : SJConfig) (f : String) : Bool :=
  if isPartialFile f = true then false
  else if isIgnoredFile f = true then false
  else if isStaticFile cfg f = true then false
  else if isDataFile cfg f = true then false
  else true

/-- The five roles of the specification's classification partition. -/
inductive Role where
  | rPartial : Role
  | rIgnored : Role
  | rStatic : Role
  | rData : Role
  | rTemplate : Role
deriving DecidableEq, Repr

/-- The role of a path under the specification's strict precedence
partial > ignored > static > data > template — the predicate order that
`Sources.is_template` implements through its early returns. -/
def classify (cfg : SJConfig) (f : String) : Role :=
  if isPartialFile f = true then Role.rPartial
  else if isIgnoredFile f = true then Role.rIgnored
  else if isStaticFile cfg f = true then Role.rStatic
  else if isDataFile cfg f = true then Role.rData
  else Role.rTemplate

/-- `Sources.get_dependencies`: the singleton for a template, the raw
descendants traversal for a partial or data file, the singleton for a
static file, the empty list otherwise; the branch order is the source's. -/
def getDependencies (cfg : SJConfig) (g : DepGraph) (f : String) (fuel : Nat) :
    Except PyErr (List String) :=
  if isTemplateFile cfg f = true then Except.ok [f]
  else if (isPartialFile f || isDataFile cfg f) = true then
    (getDescendants g f fuel).map (fun st => st.out)
  else if isStaticFile cfg f = true then Except.ok [f]
  else Except.ok []

/-- The `needs_rendering` list computed by `Reloader.event_handler` for a
non-static, non-ignored changed file: the file itself when it is a
template, otherwise `get_dependencies` filtered by `is_template`. -/
def needsRendering (cfg : SJConfig) (g : DepGraph) (f : String) (fuel : Nat) :
    Except PyErr (List String) :=
  if isTemplateFile cfg f = true then Except.ok [f]
  else (getDependencies cfg g f fuel).map (fun l => l.filter (fun x => isTemplateFile cfg x))

/-- The three ways `Reloader.event_handler` treats an accepted event. -/
inductive EventBranch where
  | copyStatic : EventBranch
  | dropIgnored : EventBranch
  | updateAndRender : EventBranch
deriving DecidableEq, Repr

/-- The dispatch of `Reloader.event_handler` on a handled file: it tests
`is_static` first, then `is_ignored`, and otherwise updates the graph and
renders — this order is the source's, not the classifier's precedence. -/
def eventBranch (cfg : SJConfig) (f : String) : EventBranch :=
  if isStaticFile cfg f = true then EventBranch.copyStatic
  else if isIgnoredFile f = true then EventBranch.dropIgnored
  else EventBranch.updateAndRender

/-- The treatment that the classification precedence would dictate for
each role: copy for static, drop for ignored, graph refresh plus render
for template, partial and data files. -/
def claimedBranch : Role → EventBranch
  | Role.rStatic => EventBranch.copyStatic
  | Role.rIgnored => EventBranch.dropIgnored
  | _ => EventBranch.updateAndRender

/-! ## Invariants and reachability -/

/-- Invariant I1, inverse consistency, quantified over the stored entries
so that it is decidable on concrete graphs: every forward edge is
recorded backwards and conversely. For duplicate-free key lists this is
equivalent to `I1F` below. -/
def I1D (g : DepGraph) : Prop :=
  (∀ e ∈ g.parents, ∀ u ∈ e.2, e.1 ∈ lookupD g.children u) ∧
  (∀ e ∈ g.children, ∀ u ∈ e.2, e.1 ∈ lookupD g.parents u)

/-- Invariant I1 stated for all vertex pairs through dict lookup
(missing keys read as the empty set): `u ∈ parents[v] ↔ v ∈ children[u]`. -/
def I1F (g : DepGraph) : Prop :=
  ∀ u v : String, u ∈ lookupD g.parents v ↔ v ∈ lookupD g.children u

/-- Invariant I2, closed vertex set, over the stored entries (decidable
on concrete graphs): keys of `parents` are keys of `children` and
conversely, and every vertex named inside an edge set is itself a key. -/
def I2D (g : DepGraph) : Prop :=
  (∀ e ∈ g.parents, isKey g.children e.1 = true) ∧
  (∀ e ∈ g.children, isKey g.parents e.1 = true) ∧
  (∀ e ∈ g.parents, ∀ u ∈ e.2, isKey g.parents u = true) ∧
  (∀ e ∈ g.children, ∀ u ∈ e.2, isKey g.children u = true)

/-- Invariant I2 for all vertices through dict lookup. -/
def I2F (g : DepGraph) : Prop :=
  (∀ v : String, isKey g.parents v = isKey g.children v) ∧
  (∀ v u : String, u ∈ lookupD g.parents v → isKey g.parents u = true) ∧
  (∀ v u : String, u ∈ lookupD g.children v → isKey g.children u = true)

/-- Reachability by zero or more steps along an adjacency dict. -/
inductive Reach (adj : AdjList) : String → String → Prop where
  | refl (v : String) : Reach adj v v
  | step {u w x : String} : Reach adj u w → x ∈ lookupD adj w → Reach adj u x

instance (g : DepGraph) : Decidable (I1D g) := by
  unfold I1D; infer_instance

instance (g : DepGraph) : Decidable (I2D g) := by
  unfold I2D; infer_instance

instance (m : AdjList) : Decidable (keysNodup m) := by
  unfold keysNodup; infer_instance

/-- A sequence of `update` calls applied in order, stopping at the first
failure (the reactor performs one `update` per event). -/
def applyUpdates (g : DepGraph) (us : List (String × List String)) : DepGraph × Bool :=
  match us with
  | [] => (g, true)
  | (v, ps) :: rest =>
    match update g v ps with
    | (g', false) => (g', false)
    | (g', true) => applyUpdates g' rest

/-- Every update of the sequence names a vertex that is already a key of
`parents` at the moment it is applied. -/
def allKnownB (g : DepGraph) (us : List (String × List String)) : Bool :=
  match us with
  | [] => true
  | (v, ps) :: rest => isKey g.parents v && allKnownB (update g v ps).1 rest

/-! ## Termination measure and loop invariant for the traversal -/

/-- The largest edge-set size in the adjacency dict (bounds how much one
push can grow the iterator stack). -/
def maxValLen (adj : AdjList) : Nat :=
  adj.foldr (fun e acc => max e.2.length acc) 0

/-- Number of keys of the adjacency dict not yet visited. -/
def unseenCount (adj : AdjList) (seen : List String) : Nat :=
  ((adj.map Prod.fst).filter (fun k => decide (¬ k ∈ seen))).length

/-- Total number of pending iterator elements plus the stack height. -/
def stackWeight (st : List (List String)) : Nat :=
  st.foldr (fun t acc => t.length + 1 + acc) 0

/-- Strictly decreasing measure for the `while stack:` loop of
`connected_components`. -/
def dfsMeasure (adj : AdjList) (s : DfsState) : Nat :=
  unseenCount adj s.seen * (maxValLen adj + 1) + stackWeight s.stack

/-- Loop invariant of the depth-first traversal started at `start`:
the visited set is exactly `start` plus the yields in order, without
duplicates; everything visited is reachable and a key; every pending
iterator element is a key and reachable; and every edge out of a visited
vertex leads back into the visited set or is still pending on the stack. -/
structure DfsInv (adj : AdjList) (start : String) (s : DfsState) : Prop where
  seen_eq : s.seen = s.out.reverse ++ [start]
  seen_nodup : s.seen.Nodup
  seen_reach : ∀ w ∈ s.seen, Reach adj start w
  seen_keys : ∀ w ∈ s.seen, isKey adj w = true
  stack_keys : ∀ t ∈ s.stack, ∀ w ∈ t, isKey adj w = true
  stack_reach : ∀ t ∈ s.stack, ∀ w ∈ t, Reach adj start w
  closure : ∀ w ∈ s.seen, ∀ x ∈ lookupD adj w, x ∈ s.seen ∨ ∃ t ∈ s.stack, x ∈ t

/-! ## Concrete instances used by witnesses and counterexamples -/

/-- The two-cycle a ↔ b (a depends on b and b depends on a). -/
def gCyc : DepGraph :=
  DepGraph.mk [("a", ["b"]), ("b", ["a"])] [("a", ["b"]), ("b", ["a"])]

/-- A one-vertex graph as built by `from_parents`. -/
def gOne : DepGraph :=
  DepGraph.mk [("a", [])] [("a", [])]

/-- A template `f` depending on `a`, as built by `from_parents`. -/
def gFA : DepGraph :=
  DepGraph.mk [("f", ["a"]), ("a", [])] [("f", []), ("a", ["f"])]

/-- A chain page → _p2 → _p1 of a template including a partial that
includes another partial, as built by `from_parents`. -/
def gChain : DepGraph :=
  DepGraph.mk
    [("page", ["_p2"]), ("_p2", ["_p1"]), ("_p1", [])]
    [("page", []), ("_p2", ["page"]), ("_p1", ["_p2"])]

/-- Configuration with a data directory and no static support. -/
def cfgData : SJConfig := SJConfig.mk none (some ["data"])

/-- Configuration whose static path list contains an underscore-prefixed
directory name. -/
def cfgUStatic : SJConfig := SJConfig.mk (some ["_st"]) none

/-- Configuration with both a static and a data directory. -/
def cfgBoth : SJConfig := SJConfig.mk (some ["static"]) (some ["data"])

/-- A two-vertex graph a → b as built by `from_parents`. -/
def gAB : DepGraph :=
  DepGraph.mk [("a", ["b"]), ("b", [])] [("a", []), ("b", ["a"])]

/-- An update sequence on known vertices: clear a's parents, then restore. -/
def usAB : List (String × List String) := [("a", []), ("a", ["b"])]

/-! ## Association-list lemmas -/

theorem lookupA_mem {m : AdjList} {k : String} {v : List String}
    (h : lookupA m k = some v) : (k, v) ∈ m := by
  induction m with
  | nil => simp [lookupA] at h
  | cons e rest ih =>
    obtain ⟨k', v'⟩ := e
    by_cases hk : k' = k
    · subst hk
      simp [lookupA] at h
      subst h
      exact List.mem_cons_self _ _
    · simp [lookupA, hk] at h
      exact List.mem_cons_of_mem _ (ih h)

theorem mem_lookupA_of_nodup {m : AdjList} {k : String} {v : List String}
    (hn : keysNodup m) (h : (k, v) ∈ m) : lookupA m k = some v := by
  induction m with
  | nil => simp at h
  | cons e rest ih =>
    obtain ⟨k', v'⟩ := e
    unfold keysNodup at hn
    simp only [List.map_cons, List.nodup_cons] at hn
    rcases List.mem_cons.mp h with h1 | h1
    · rw [Prod.mk.injEq] at h1
      obtain ⟨hk, hv⟩ := h1
      subst hk; subst hv
      simp [lookupA]
    · have hk : k' ≠ k := by
        intro he
        subst he
        exact hn.1 (List.mem_map.mpr ⟨(k', v), h1, rfl⟩)
      simp [lookupA, hk]
      exact ih hn.2 h1

theorem lookupD_eq {m : AdjList} {k : String} {v : List String}
    (h : lookupA m k = some v) : lookupD m k = v := by
  simp [lookupD, h]

theorem lookupD_of_not_key {m : AdjList} {k : String}
    (h : isKey m k = false) : lookupD m k = [] := by
  unfold isKey at h
  cases hl : lookupA m k with
  | none => simp [lookupD, hl]
  | some v => rw [hl] at h; simp at h

theorem isKey_true_iff {m : AdjList} {k : String} :
    isKey m k = true ↔ ∃ v, lookupA m k = some v := by
  unfold isKey
  exact Option.isSome_iff_exists

theorem mem_lookupD {m : AdjList} {k u : String} (h : u ∈ lookupD m k) :
    ∃ v, lookupA m k = some v ∧ u ∈ v := by
  unfold lookupD at h
  cases hl : lookupA m k with
  | none => rw [hl] at h; simp at h
  | some v => rw [hl] at h; exact ⟨v, rfl, h⟩

theorem isKey_of_mem_lookupD {m : AdjList} {k u : String} (h : u ∈ lookupD m k) :
    isKey m k = true := by
  obtain ⟨v, hv, _⟩ := mem_lookupD h
  exact isKey_true_iff.mpr ⟨v, hv⟩

theorem lookupA_setValA (m : AdjList) (k : String) (v : List String) (u : String) :
    lookupA (setValA m k v) u = if u = k then some v else lookupA m u := by
  induction m with
  | nil =>
    by_cases hu : u = k
    · subst hu; simp [setValA, lookupA]
    · have h' : ¬ k = u := fun h => hu h.symm
      simp [setValA, lookupA, hu, h']
  | cons e rest ih =>
    obtain ⟨k', v'⟩ := e
    simp only [setValA]
    by_cases hk : k' = k
    · subst hk
      simp only [if_pos rfl]
      by_cases hu : u = k'
      · subst hu; simp [lookupA]
      · have h' : ¬ k' = u := fun h => hu h.symm
        simp [lookupA, hu, h']
    · simp only [if_neg hk]
      by_cases hu : k' = u
      · subst hu
        have h' : ¬ k' = k := hk
        simp [lookupA, h']
      · simp [lookupA, hu, ih]

theorem isKey_setValA (m : AdjList) (k : String) (v : List String) (u : String) :
    isKey (setValA m k v) u = if u = k then true else isKey m u := by
  unfold isKey
  rw [lookupA_setValA]
  by_cases hu : u = k <;> simp [hu]

theorem isKey_setValA_of_key {m : AdjList} {k : String} (v : List String)
    (hk : isKey m k = true) (u : String) : isKey (setValA m k v) u = isKey m u := by
  rw [isKey_setValA]
  by_cases hu : u = k
  · subst hu; simp [hk]
  · simp [hu]

theorem isKey_iff_mem_keys {m : AdjList} {k : String} :
    isKey m k = true ↔ k ∈ m.map Prod.fst := by
  induction m with
  | nil => simp [isKey, lookupA]
  | cons e rest ih =>
    obtain ⟨k', v'⟩ := e
    by_cases hk : k' = k
    · subst hk; simp [isKey, lookupA]
    · have he : isKey ((k', v') :: rest) k = isKey rest k := by
        simp [isKey, lookupA, hk]
      rw [he, ih]
      simp only [List.map_cons, List.mem_cons]
      constructor
      · intro h; exact Or.inr h
      · intro h
        rcases h with h | h
        · exact absurd h.symm hk
        · exact h

theorem keys_setValA (m : AdjList) (k : String) (v : List String) :
    (setValA m k v).map Prod.fst =
      if isKey m k = true then m.map Prod.fst else m.map Prod.fst ++ [k] := by
  induction m with
  | nil => simp [setValA, isKey, lookupA]
  | cons e rest ih =>
    obtain ⟨k', v'⟩ := e
    simp only [setValA]
    by_cases hk : k' = k
    · subst hk
      simp [isKey, lookupA]
    · simp only [if_neg hk, List.map_cons, ih]
      have hkey : isKey ((k', v') :: rest) k = isKey rest k := by
        simp [isKey, lookupA, hk]
      rw [hkey]
      by_cases h2 : isKey rest k = true
      · simp [h2]
      · simp [h2]

theorem keysNodup_setValA {m : AdjList} (k : String) (v : List String)
    (hn : keysNodup m) : keysNodup (setValA m k v) := by
  unfold keysNodup at hn ⊢
  rw [keys_setValA]
  by_cases h : isKey m k = true
  · simp [h, hn]
  · simp only [h, if_neg]
    simp only [Bool.not_eq_true] at h
    have hk : k ∉ m.map Prod.fst := by
      intro hc
      rw [← isKey_iff_mem_keys] at hc
      rw [hc] at h
      exact Bool.noConfusion h
    simp [List.nodup_append, hn, hk]

theorem lookupD_setValA (m : AdjList) (k : String) (v : List String) (u : String) :
    lookupD (setValA m k v) u = if u = k then v else lookupD m u := by
  unfold lookupD
  rw [lookupA_setValA]
  by_cases hu : u = k <;> simp [hu]

/-! ## Lemmas on the add / remove loops -/

theorem isKey_addAllM (m : AdjList) (f : String) (ds : List String) (u : String) :
    isKey (addAllM m f ds).1 u = isKey m u := by
  induction ds generalizing m with
  | nil => rfl
  | cons d rest ih =>
    cases hl : lookupA m d with
    | none => simp [addAllM, hl]
    | some s =>
      have hd : isKey m d = true := isKey_true_iff.mpr ⟨s, hl⟩
      simp only [addAllM, hl]
      rw [ih]
      exact isKey_setValA_of_key _ hd u

theorem addAllM_ok_keys {m : AdjList} {f : String} {ds : List String} {m' : AdjList}
    (h : addAllM m f ds = (m', true)) : ∀ d ∈ ds, isKey m d = true := by
  induction ds generalizing m with
  | nil => intro d hd; simp at hd
  | cons d0 rest ih =>
    cases hl : lookupA m d0 with
    | none =>
      rw [addAllM, hl] at h
      exact absurd (congrArg Prod.snd h) (by simp)
    | some s =>
      rw [addAllM, hl] at h
      intro d hd
      rcases List.mem_cons.mp hd with h1 | h1
      · subst h1; exact isKey_true_iff.mpr ⟨s, hl⟩
      · have hd0 : isKey m d0 = true := isKey_true_iff.mpr ⟨s, hl⟩
        have := ih h d h1
        rw [isKey_setValA_of_key _ hd0] at this
        exact this

theorem mem_addAllM {m : AdjList} {f : String} {ds : List String} {m' : AdjList}
    (h : addAllM m f ds = (m', true)) (u w : String) :
    w ∈ lookupD m' u ↔ w ∈ lookupD m u ∨ (w = f ∧ u ∈ ds) := by
  induction ds generalizing m with
  | nil =>
    rw [addAllM] at h
    have hm : m = m' := congrArg Prod.fst h
    subst hm
    simp
  | cons d0 rest ih =>
    cases hl : lookupA m d0 with
    | none =>
      rw [addAllM, hl] at h
      exact absurd (congrArg Prod.snd h) (by simp)
    | some s =>
      rw [addAllM, hl] at h
      have hmem := ih h
      rw [hmem]
      have hs : w ∈ (if f ∈ s then s else s ++ [f]) ↔ w ∈ s ∨ w = f := by
        by_cases hf : f ∈ s
        · simp only [if_pos hf]
          constructor
          · exact Or.inl
          · intro hc
            rcases hc with hc | hc
            · exact hc
            · subst hc; exact hf
        · simp [if_neg hf]
      rw [lookupD_setValA]
      by_cases hu : u = d0
      · subst hu
        rw [if_pos rfl, lookupD_eq hl, hs]
        simp only [List.mem_cons]
        tauto
      · rw [if_neg hu]
        simp only [List.mem_cons]
        tauto

theorem addAllM_ok_of_keys {m : AdjList} {f : String} {ds : List String}
    (h : ∀ d ∈ ds, isKey m d = true) : (addAllM m f ds).2 = true := by
  induction ds generalizing m with
  | nil => rfl
  | cons d0 rest ih =>
    have hd0 : isKey m d0 = true := h d0 (List.mem_cons_self _ _)
    rcases isKey_true_iff.mp hd0 with ⟨s, hl⟩
    simp only [addAllM, hl]
    apply ih
    intro d hd
    rw [isKey_setValA_of_key _ hd0]
    exact h d (List.mem_cons_of_mem _ hd)

theorem addAllM_false_of {m : AdjList} {f : String} {ds : List String} {d0 : String}
    (hmem : d0 ∈ ds) (hkey : isKey m d0 = false) : (addAllM m f ds).2 = false := by
  induction ds generalizing m with
  | nil => simp at hmem
  | cons d1 rest ih =>
    cases hl : lookupA m d1 with
    | none => simp [addAllM, hl]
    | some s =>
      have hd1 : isKey m d1 = true := isKey_true_iff.mpr ⟨s, hl⟩
      have hne : d0 ≠ d1 := by
        intro he; subst he; rw [hd1] at hkey; exact Bool.noConfusion hkey
      have h1 : d0 ∈ rest := by
        rcases List.mem_cons.mp hmem with h1 | h1
        · exact absurd h1 hne
        · exact h1
      simp only [addAllM, hl]
      apply ih h1
      rw [isKey_setValA_of_key _ hd1]
      exact hkey

theorem isKey_removeAllM (m : AdjList) (v : String) (ds : List String) (u : String) :
    isKey (removeAllM m v ds).1 u = isKey m u := by
  induction ds generalizing m with
  | nil => rfl
  | cons p rest ih =>
    cases hl : lookupA m p with
    | none => simp [removeAllM, hl]
    | some s =>
      have hp : isKey m p = true := isKey_true_iff.mpr ⟨s, hl⟩
      by_cases hv : v ∈ s
      · simp only [removeAllM, hl, if_pos hv]
        rw [ih]
        exact isKey_setValA_of_key _ hp u
      · simp [removeAllM, hl, hv]

theorem mem_removeAllM {m : AdjList} {v : String} {ds : List String} {m' : AdjList}
    (h : removeAllM m v ds = (m', true)) (u w : String) :
    w ∈ lookupD m' u ↔ w ∈ lookupD m u ∧ ¬ (w = v ∧ u ∈ ds) := by
  induction ds generalizing m with
  | nil =>
    rw [removeAllM] at h
    have hm : m = m' := congrArg Prod.fst h
    subst hm
    simp
  | cons p0 rest ih =>
    cases hl : lookupA m p0 with
    | none =>
      rw [removeAllM, hl] at h
      exact absurd (congrArg Prod.snd h) (by simp)
    | some s =>
      by_cases hv : v ∈ s
      · simp only [removeAllM, hl, if_pos hv] at h
        have hmem := ih h
        rw [hmem]
        rw [lookupD_setValA]
        by_cases hu : u = p0
        · subst hu
          rw [if_pos rfl, lookupD_eq hl]
          simp only [List.mem_filter, List.mem_cons, decide_eq_true_eq]
          tauto
        · rw [if_neg hu]
          simp only [List.mem_cons]
          tauto
      · simp only [removeAllM, hl, if_neg hv] at h
        exact absurd (congrArg Prod.snd h) (by simp)

/-! ## Lemmas on graph construction -/

theorem isKey_buildChildren {m : AdjList} {entries : List (String × List String)}
    {ch : AdjList} (h : buildChildren m entries = some ch) (u : String) :
    isKey ch u = isKey m u := by
  induction entries generalizing m with
  | nil =>
    rw [buildChildren] at h
    cases h
    rfl
  | cons e rest ih =>
    obtain ⟨f, ds⟩ := e
    rw [buildChildren] at h
    cases ha : addAllM m f ds with
    | mk m1 ok =>
      rw [ha] at h
      cases ok with
      | false => simp at h
      | true =>
        simp only at h
        rw [ih h]
        have := isKey_addAllM m f ds u
        rw [ha] at this
        exact this

theorem buildChildren_entry_keys {m : AdjList} {entries : List (String × List String)}
    {ch : AdjList} (h : buildChildren m entries = some ch) :
    ∀ e ∈ entries, ∀ d ∈ e.2, isKey m d = true := by
  induction entries generalizing m with
  | nil => intro e he; simp at he
  | cons e0 rest ih =>
    obtain ⟨f, ds⟩ := e0
    rw [buildChildren] at h
    cases ha : addAllM m f ds with
    | mk m1 ok =>
      rw [ha] at h
      cases ok with
      | false => simp at h
      | true =>
        simp only at h
        intro e he d hd
        rcases List.mem_cons.mp he with h1 | h1
        · subst h1
          exact addAllM_ok_keys ha d hd
        · have := ih h e h1 d hd
          have hk := isKey_addAllM m f ds d
          rw [ha] at hk
          rw [hk] at this
          exact this

theorem mem_buildChildren {m : AdjList} {entries : List (String × List String)}
    {ch : AdjList} (h : buildChildren m entries = some ch) (u w : String) :
    w ∈ lookupD ch u ↔ w ∈ lookupD m u ∨ ∃ e ∈ entries, w = e.1 ∧ u ∈ e.2 := by
  induction entries generalizing m with
  | nil =>
    rw [buildChildren] at h
    cases h
    simp
  | cons e0 rest ih =>
    obtain ⟨f, ds⟩ := e0
    rw [buildChildren] at h
    cases ha : addAllM m f ds with
    | mk m1 ok =>
      rw [ha] at h
      cases ok with
      | false => simp at h
      | true =>
        simp only at h
        rw [ih h, mem_addAllM ha]
        simp only [List.mem_cons]
        constructor
        · intro hc
          rcases hc with (hc | hc) | hc
          · exact Or.inl hc
          · exact Or.inr ⟨(f, ds), Or.inl rfl, hc⟩
          · rcases hc with ⟨e, he, hw, hu⟩
            exact Or.inr ⟨e, Or.inr he, hw, hu⟩
        · intro hc
          rcases hc with hc | ⟨e, he, hw, hu⟩
          · exact Or.inl (Or.inl hc)
          · rcases he with he | he
            · subst he
              exact Or.inl (Or.inr ⟨hw, hu⟩)
            · exact Or.inr ⟨e, he, hw, hu⟩

theorem lookupD_initChildren (ps : List (String × List String)) (u : String) :
    lookupD (ps.map (fun e => (e.1, ([] : List String)))) u = [] := by
  induction ps with
  | nil => simp [lookupD, lookupA]
  | cons e rest ih =>
    obtain ⟨k, v⟩ := e
    by_cases hk : k = u
    · simp [lookupD, lookupA, hk]
    · simp only [List.map_cons]
      rw [lookupD, lookupA, if_neg hk]
      exact ih

theorem isKey_initChildren (ps : List (String × List String)) (u : String) :
    isKey (ps.map (fun e => (e.1, ([] : List String)))) u = isKey ps u := by
  induction ps with
  | nil => rfl
  | cons e rest ih =>
    obtain ⟨k, v⟩ := e
    by_cases hk : k = u
    · simp [isKey, lookupA, hk]
    · simp only [List.map_cons]
      rw [isKey, lookupA, if_neg hk, isKey, lookupA, if_neg hk]
      exact ih

/-! ## Lemmas on `update` -/

theorem update_result_cases (g : DepGraph) (v : String) (newP : List String) :
    (eqAsSet newP (lookupD g.parents v) = true ∧ update g v newP = (g, true)) ∨
    (eqAsSet newP (lookupD g.parents v) = false ∧
      ∃ ch1 b1,
        removeAllM g.children v
            ((lookupD g.parents v).filter (fun p => decide (¬ p ∈ newP))) = (ch1, b1) ∧
        ((b1 = false ∧ update g v newP = ({ g with children := ch1 }, false)) ∨
         (b1 = true ∧ ∃ ch2 b2,
            addAllM ch1 v
                (newP.filter (fun p => decide (¬ p ∈ lookupD g.parents v))) = (ch2, b2) ∧
            ((b2 = false ∧ update g v newP = ({ g with children := ch2 }, false)) ∨
             (b2 = true ∧
              update g v newP = (DepGraph.mk (setValA g.parents v newP) ch2, true)))))) := by
  by_cases he : eqAsSet newP (lookupD g.parents v) = true
  · exact Or.inl ⟨he, by simp only [update, if_pos he]⟩
  · refine Or.inr ⟨Bool.eq_false_iff.mpr he, ?_⟩
    cases hr : removeAllM g.children v
        ((lookupD g.parents v).filter (fun p => decide (¬ p ∈ newP))) with
    | mk ch1 b1 =>
      refine ⟨ch1, b1, rfl, ?_⟩
      cases b1 with
      | false =>
        exact Or.inl ⟨rfl, by simp only [update, if_neg he, hr]⟩
      | true =>
        refine Or.inr ⟨rfl, ?_⟩
        cases ha : addAllM ch1 v
            (newP.filter (fun p => decide (¬ p ∈ lookupD g.parents v))) with
        | mk ch2 b2 =>
          refine ⟨ch2, b2, rfl, ?_⟩
          cases b2 with
          | false =>
            exact Or.inl ⟨rfl, by simp only [update, if_neg he, hr, ha]⟩
          | true =>
            exact Or.inr ⟨rfl, by simp only [update, if_neg he, hr, ha]⟩

theorem update_success_cases {g : DepGraph} {v : String} {newP : List String} {g' : DepGraph}
    (h : update g v newP = (g', true)) :
    (eqAsSet newP (lookupD g.parents v) = true ∧ g' = g) ∨
    (eqAsSet newP (lookupD g.parents v) = false ∧
      ∃ ch1 ch2 : AdjList,
        removeAllM g.children v
            ((lookupD g.parents v).filter (fun p => decide (¬ p ∈ newP))) = (ch1, true) ∧
        addAllM ch1 v
            (newP.filter (fun p => decide (¬ p ∈ lookupD g.parents v))) = (ch2, true) ∧
        g' = DepGraph.mk (setValA g.parents v newP) ch2) := by
  rcases update_result_cases g v newP with ⟨he, hu⟩ | ⟨he, ch1, b1, hr, hrest⟩
  · have h12 := h.symm.trans hu
    injection h12 with hg _
    exact Or.inl ⟨he, hg⟩
  · rcases hrest with ⟨hb1, hu⟩ | ⟨hb1, ch2, b2, ha, hrest⟩
    · have h12 := h.symm.trans hu
      injection h12 with _ hb
      exact Bool.noConfusion hb
    · subst hb1
      rcases hrest with ⟨hb2, hu⟩ | ⟨hb2, hu⟩
      · have h12 := h.symm.trans hu
        injection h12 with _ hb
        exact Bool.noConfusion hb
      · subst hb2
        have h12 := h.symm.trans hu
        injection h12 with hg _
        exact Or.inr ⟨he, ch1, ch2, hr, ha, hg⟩

theorem update_noop {g : DepGraph} {v : String} {newP : List String}
    (he : eqAsSet newP (lookupD g.parents v) = true) : update g v newP = (g, true) := by
  simp only [update, if_pos he]

theorem update_keys_children (g : DepGraph) (v : String) (newP : List String) (u : String) :
    isKey (update g v newP).1.children u = isKey g.children u := by
  rcases update_result_cases g v newP with ⟨he, hu⟩ | ⟨he, ch1, b1, hr, hrest⟩
  · rw [hu]
  · have hk1 : isKey ch1 u = isKey g.children u := by
      have := isKey_removeAllM g.children v
        ((lookupD g.parents v).filter (fun p => decide (¬ p ∈ newP))) u
      rw [hr] at this
      exact this
    rcases hrest with ⟨_, hu⟩ | ⟨_, ch2, b2, ha, hrest⟩
    · rw [hu]; exact hk1
    · have hk2 : isKey ch2 u = isKey ch1 u := by
        have := isKey_addAllM ch1 v
          (newP.filter (fun p => decide (¬ p ∈ lookupD g.parents v))) u
        rw [ha] at this
        exact this
      rcases hrest with ⟨_, hu⟩ | ⟨_, hu⟩ <;> rw [hu] <;> rw [hk2] <;> exact hk1

theorem update_fail_parents {g : DepGraph} {v : String} {newP : List String} {g' : DepGraph}
    (h : update g v newP = (g', false)) : g'.parents = g.parents := by
  rcases update_result_cases g v newP with ⟨he, hu⟩ | ⟨he, ch1, b1, hr, hrest⟩
  · have h12 := hu.symm.trans h
    injection h12 with _ hb
    exact Bool.noConfusion hb
  · rcases hrest with ⟨_, hu⟩ | ⟨_, ch2, b2, ha, hrest⟩
    · have h12 := hu.symm.trans h
      injection h12 with hg _
      rw [← hg]
    · rcases hrest with ⟨_, hu⟩ | ⟨_, hu⟩
      · have h12 := hu.symm.trans h
        injection h12 with hg _
        rw [← hg]
      · have h12 := hu.symm.trans h
        injection h12 with _ hb
        exact Bool.noConfusion hb

theorem I1F_update {g : DepGraph} {v : String} {newP : List String} {g' : DepGraph}
    (h1 : I1F g) (h : update g v newP = (g', true)) : I1F g' := by
  rcases update_success_cases h with ⟨he, rfl⟩ | ⟨he, ch1, ch2, hr, ha, rfl⟩
  · exact h1
  · intro a b
    show a ∈ lookupD (setValA g.parents v newP) b ↔ b ∈ lookupD ch2 a
    rw [lookupD_setValA, mem_addAllM ha, mem_removeAllM hr]
    have hlost : ∀ x : String,
        (x ∈ (lookupD g.parents v).filter (fun p => decide (¬ p ∈ newP))) ↔
        (x ∈ lookupD g.parents v ∧ ¬ x ∈ newP) := by
      intro x
      simp [List.mem_filter]
    have hgain : ∀ x : String,
        (x ∈ newP.filter (fun p => decide (¬ p ∈ lookupD g.parents v))) ↔
        (x ∈ newP ∧ ¬ x ∈ lookupD g.parents v) := by
      intro x
      simp [List.mem_filter]
    by_cases hb : b = v
    · subst hb
      rw [if_pos rfl]
      have hab := h1 a b
      rw [hlost, hgain]
      by_cases hao : a ∈ lookupD g.parents b <;> by_cases han : a ∈ newP <;>
        simp [hao, han] at hab ⊢ <;> tauto
    · rw [if_neg hb]
      have hab := h1 a b
      have hbv : ¬ (b = v ∧ a ∈ newP.filter (fun p => decide (¬ p ∈ lookupD g.parents v))) := by
        intro hc
        exact hb hc.1
      rw [hlost]
      constructor
      · intro hc
        left
        exact ⟨hab.mp hc, fun hd => hb hd.1⟩
      · intro hc
        rcases hc with ⟨hc, _⟩ | hc
        · exact hab.mpr hc
        · exact absurd hc.1 hb

theorem I2F_update {g : DepGraph} {v : String} {newP : List String} {g' : DepGraph}
    (h2 : I2F g) (hv : isKey g.parents v = true) (h : update g v newP = (g', true)) :
    I2F g' := by
  rcases update_success_cases h with ⟨he, rfl⟩ | ⟨he, ch1, ch2, hr, ha, rfl⟩
  · exact h2
  · have hk1 : ∀ u, isKey ch1 u = isKey g.children u := by
      intro u
      have := isKey_removeAllM g.children v
        ((lookupD g.parents v).filter (fun p => decide (¬ p ∈ newP))) u
      rw [hr] at this
      exact this
    have hk2 : ∀ u, isKey ch2 u = isKey g.children u := by
      intro u
      have := isKey_addAllM ch1 v
        (newP.filter (fun p => decide (¬ p ∈ lookupD g.parents v))) u
      rw [ha] at this
      rw [this]
      exact hk1 u
    have hgained : ∀ d ∈ newP.filter (fun p => decide (¬ p ∈ lookupD g.parents v)),
        isKey g.children d = true := by
      intro d hd
      have := addAllM_ok_keys ha d hd
      rw [hk1] at this
      exact this
    refine ⟨?_, ?_, ?_⟩
    · intro a
      show isKey (setValA g.parents v newP) a = isKey ch2 a
      rw [isKey_setValA, hk2]
      by_cases hav : a = v
      · subst hav
        rw [if_pos rfl, ← h2.1 a, hv]
      · rw [if_neg hav]
        exact h2.1 a
    · intro b a hab
      show isKey (setValA g.parents v newP) a = true
      rw [isKey_setValA]
      by_cases hav : a = v
      · rw [if_pos hav]
      · rw [if_neg hav]
        have hab' : a ∈ lookupD (setValA g.parents v newP) b := hab
        rw [lookupD_setValA] at hab'
        by_cases hbv : b = v
        · rw [if_pos hbv] at hab'
          by_cases hao : a ∈ lookupD g.parents v
          · exact h2.2.1 v a hao
          · have hg : a ∈ newP.filter (fun p => decide (¬ p ∈ lookupD g.parents v)) := by
              simp [List.mem_filter, hab', hao]
            have := hgained a hg
            rw [← h2.1 a] at this
            exact this
        · rw [if_neg hbv] at hab'
          exact h2.2.1 b a hab'
    · intro b a hab
      show isKey ch2 a = true
      have hab' : a ∈ lookupD ch2 b := hab
      rw [mem_addAllM ha, mem_removeAllM hr] at hab'
      rw [hk2]
      rcases hab' with ⟨hc, _⟩ | ⟨hc, _⟩
      · exact h2.2.2 b a hc
      · subst hc
        rw [← h2.1 a]
        exact hv

/-! ## Lemmas on `fromParents` -/

theorem fromParents_parts {ps : List (String × List String)} {g : DepGraph}
    (h : fromParents ps = some g) :
    g.parents = ps ∧
    buildChildren (ps.map (fun e => (e.1, ([] : List String)))) ps = some g.children := by
  unfold fromParents at h
  cases hb : buildChildren (ps.map (fun e => (e.1, ([] : List String)))) ps with
  | none => rw [hb] at h; simp at h
  | some ch =>
    rw [hb] at h
    have h' : some (DepGraph.mk ps ch) = some g := h
    cases h'
    exact ⟨rfl, rfl⟩

theorem I1F_fromParents {ps : List (String × List String)} {g : DepGraph}
    (hn : keysNodup ps) (h : fromParents ps = some g) : I1F g := by
  obtain ⟨hp, hb⟩ := fromParents_parts h
  intro a b
  rw [hp, mem_buildChildren hb a b, lookupD_initChildren]
  simp only [List.not_mem_nil, false_or]
  constructor
  · intro hc
    obtain ⟨s, hs, has⟩ := mem_lookupD hc
    exact ⟨(b, s), lookupA_mem hs, rfl, has⟩
  · intro hc
    obtain ⟨e, he, hbe, hae⟩ := hc
    obtain ⟨e1, e2⟩ := e
    subst hbe
    rw [lookupD, mem_lookupA_of_nodup hn he]
    exact hae

theorem I2F_fromParents {ps : List (String × List String)} {g : DepGraph}
    (h : fromParents ps = some g) : I2F g := by
  obtain ⟨hp, hb⟩ := fromParents_parts h
  have hkeys : ∀ u, isKey g.children u = isKey ps u := by
    intro u
    rw [isKey_buildChildren hb, isKey_initChildren]
  refine ⟨?_, ?_, ?_⟩
  · intro a
    rw [hp, hkeys]
  · intro b a hab
    rw [hp] at hab ⊢
    obtain ⟨s, hs, has⟩ := mem_lookupD hab
    have := buildChildren_entry_keys hb (b, s) (lookupA_mem hs) a has
    rw [isKey_initChildren] at this
    exact this
  · intro b a hab
    rw [mem_buildChildren hb b a, lookupD_initChildren] at hab
    simp only [List.not_mem_nil, false_or] at hab
    obtain ⟨e, he, hae, _⟩ := hab
    rw [hkeys]
    subst hae
    rw [isKey_iff_mem_keys]
    exact List.mem_map.mpr ⟨e, he, rfl⟩

/-! ## Sequences of updates -/

theorem applyUpdates_invariants {us : List (String × List String)} :
    ∀ {g gfin : DepGraph}, I1F g → applyUpdates g us = (gfin, true) →
    I1F gfin ∧ (I2F g → allKnownB g us = true → I2F gfin) := by
  induction us with
  | nil =>
    intro g gfin h1 hrun
    rw [applyUpdates] at hrun
    cases hrun
    exact ⟨h1, fun h2 _ => h2⟩
  | cons e rest ih =>
    intro g gfin h1 hrun
    obtain ⟨v, ps⟩ := e
    rw [applyUpdates] at hrun
    cases hu : update g v ps with
    | mk g' b =>
      rw [hu] at hrun
      cases b with
      | false =>
        have hb : false = true := congrArg Prod.snd hrun
        exact Bool.noConfusion hb
      | true =>
        have hrun' : applyUpdates g' rest = (gfin, true) := hrun
        have h1' := I1F_update h1 hu
        obtain ⟨hf1, hf2⟩ := ih h1' hrun'
        refine ⟨hf1, ?_⟩
        intro h2 hak
        rw [allKnownB] at hak
        simp only [Bool.and_eq_true] at hak
        have h2' := I2F_update h2 hak.1 hu
        have hak' : allKnownB g' rest = true := by
          have := hak.2
          rw [hu] at this
          exact this
        exact hf2 h2' hak'

/-! ## Depth-first traversal: termination and correctness -/

theorem length_filter_mono {α : Type} (l : List α) (p q : α → Bool)
    (himp : ∀ x, q x = true → p x = true) :
    (l.filter q).length ≤ (l.filter p).length := by
  induction l with
  | nil => simp
  | cons a tl ih =>
    rw [List.filter_cons, List.filter_cons]
    cases hq : q a with
    | true =>
      rw [himp a hq]
      simp only [if_pos, List.length_cons]
      omega
    | false =>
      cases hp : p a with
      | true =>
        simp only [Bool.false_eq_true, if_false, if_pos, List.length_cons]
        omega
      | false =>
        simp only [Bool.false_eq_true, if_false]
        exact ih

theorem length_filter_strict {α : Type} (l : List α) (p q : α → Bool)
    (himp : ∀ x, q x = true → p x = true) (x : α) (hx : x ∈ l)
    (hpx : p x = true) (hqx : q x = false) :
    (l.filter q).length < (l.filter p).length := by
  induction l with
  | nil => simp at hx
  | cons a tl ih =>
    rw [List.filter_cons, List.filter_cons]
    by_cases hax : a = x
    · rw [hax, hpx, hqx]
      simp only [if_pos, Bool.false_eq_true, if_false, List.length_cons]
      have := length_filter_mono tl p q himp
      omega
    · have hx' : x ∈ tl := by
        rcases List.mem_cons.mp hx with h | h
        · exact absurd h.symm hax
        · exact h
      cases hq : q a with
      | true =>
        rw [himp a hq]
        simp only [if_pos, List.length_cons]
        have := ih hx'
        omega
      | false =>
        cases hp : p a with
        | true =>
          simp only [Bool.false_eq_true, if_false, if_pos, List.length_cons]
          have := ih hx'
          omega
        | false =>
          simp only [Bool.false_eq_true, if_false]
          exact ih hx'

theorem lookupA_length_le_maxValLen {adj : AdjList} {c : String} {l : List String}
    (h : lookupA adj c = some l) : l.length ≤ maxValLen adj := by
  have hm := lookupA_mem h
  clear h
  induction adj with
  | nil => simp at hm
  | cons e rest ih =>
    have hfold : maxValLen (e :: rest) = max e.2.length (maxValLen rest) := rfl
    rcases List.mem_cons.mp hm with h1 | h1
    · rw [hfold, ← h1]
      exact Nat.le_max_left _ _
    · rw [hfold]
      exact Nat.le_trans (ih h1) (Nat.le_max_right _ _)

theorem unseenCount_lt {adj : AdjList} {seen : List String} {c : String}
    (hc : isKey adj c = true) (hns : ¬ c ∈ seen) :
    unseenCount adj (c :: seen) < unseenCount adj seen := by
  unfold unseenCount
  apply length_filter_strict (adj.map Prod.fst)
    (fun k => decide (¬ k ∈ seen)) (fun k => decide (¬ k ∈ c :: seen))
    ?_ c ?_ ?_ ?_
  · intro x hxq
    simp only [decide_eq_true_eq] at hxq ⊢
    intro hxs
    exact hxq (List.mem_cons_of_mem _ hxs)
  · exact isKey_iff_mem_keys.mp hc
  · simp [hns]
  · simp

theorem stackWeight_eq_zero {st : List (List String)} (h : stackWeight st = 0) : st = [] := by
  cases st with
  | nil => rfl
  | cons t r =>
    exfalso
    have : stackWeight (t :: r) = t.length + 1 + stackWeight r := rfl
    omega

theorem measure_key (a b bigA l w : Nat) (hab : a < b) (hlA : l ≤ bigA) :
    a * (bigA + 1) + (w + l) < b * (bigA + 1) + w := by
  have h1 : a * (bigA + 1) + (w + l) < (a + 1) * (bigA + 1) + w := by
    have : (a + 1) * (bigA + 1) = a * (bigA + 1) + (bigA + 1) := by ring
    omega
  have h2 : (a + 1) * (bigA + 1) ≤ b * (bigA + 1) := Nat.mul_le_mul_right _ hab
  omega

theorem dfsInv_pop {adj : AdjList} {start : String} {seen : List String}
    {rest : List (List String)} {out : List String}
    (h : DfsInv adj start (DfsState.mk seen ([] :: rest) out)) :
    DfsInv adj start (DfsState.mk seen rest out) := by
  refine ⟨h.seen_eq, h.seen_nodup, h.seen_reach, h.seen_keys, ?_, ?_, ?_⟩
  · intro t ht w hw
    exact h.stack_keys t (List.mem_cons_of_mem _ ht) w hw
  · intro t ht w hw
    exact h.stack_reach t (List.mem_cons_of_mem _ ht) w hw
  · intro w hw x hx
    rcases h.closure w hw x hx with hc | ⟨t, ht, hxt⟩
    · exact Or.inl hc
    · rcases List.mem_cons.mp ht with h1 | h1
      · subst h1; simp at hxt
      · exact Or.inr ⟨t, h1, hxt⟩

theorem dfsInv_skip {adj : AdjList} {start : String} {seen : List String} {c : String}
    {cs : List String} {rest : List (List String)} {out : List String}
    (h : DfsInv adj start (DfsState.mk seen ((c :: cs) :: rest) out)) (hc : c ∈ seen) :
    DfsInv adj start (DfsState.mk seen (cs :: rest) out) := by
  refine ⟨h.seen_eq, h.seen_nodup, h.seen_reach, h.seen_keys, ?_, ?_, ?_⟩
  · intro t ht w hw
    rcases List.mem_cons.mp ht with h1 | h1
    · exact h.stack_keys (c :: cs) (List.mem_cons_self _ _) w
        (List.mem_cons_of_mem _ (h1 ▸ hw))
    · exact h.stack_keys t (List.mem_cons_of_mem _ h1) w hw
  · intro t ht w hw
    rcases List.mem_cons.mp ht with h1 | h1
    · exact h.stack_reach (c :: cs) (List.mem_cons_self _ _) w
        (List.mem_cons_of_mem _ (h1 ▸ hw))
    · exact h.stack_reach t (List.mem_cons_of_mem _ h1) w hw
  · intro w hw x hx
    rcases h.closure w hw x hx with hc1 | ⟨t, ht, hxt⟩
    · exact Or.inl hc1
    · rcases List.mem_cons.mp ht with h1 | h1
      · subst h1
        rcases List.mem_cons.mp hxt with h2 | h2
        · subst h2; exact Or.inl hc
        · exact Or.inr ⟨cs, List.mem_cons_self _ _, h2⟩
      · exact Or.inr ⟨t, List.mem_cons_of_mem _ h1, hxt⟩

theorem dfsInv_visit {adj : AdjList} {start : String} {seen : List String} {c : String}
    {cs : List String} {rest : List (List String)} {out : List String} {l : List String}
    (hclosed : ∀ v w, w ∈ lookupD adj v → isKey adj w = true)
    (h : DfsInv adj start (DfsState.mk seen ((c :: cs) :: rest) out))
    (hc : ¬ c ∈ seen) (hl : lookupA adj c = some l) :
    DfsInv adj start (DfsState.mk (c :: seen) (l :: cs :: rest) (out ++ [c])) := by
  have hreach_c : Reach adj start c :=
    h.stack_reach (c :: cs) (List.mem_cons_self _ _) c (List.mem_cons_self _ _)
  have hld : lookupD adj c = l := lookupD_eq hl
  refine ⟨?_, ?_, ?_, ?_, ?_, ?_, ?_⟩
  · show c :: seen = (out ++ [c]).reverse ++ [start]
    have hse : seen = out.reverse ++ [start] := h.seen_eq
    rw [hse]
    simp
  · exact List.nodup_cons.mpr ⟨hc, h.seen_nodup⟩
  · intro w hw
    rcases List.mem_cons.mp hw with h1 | h1
    · subst h1; exact hreach_c
    · exact h.seen_reach w h1
  · intro w hw
    rcases List.mem_cons.mp hw with h1 | h1
    · subst h1; exact isKey_true_iff.mpr ⟨l, hl⟩
    · exact h.seen_keys w h1
  · intro t ht w hw
    rcases List.mem_cons.mp ht with h1 | h1
    · subst h1
      exact hclosed c w (hld ▸ hw)
    · rcases List.mem_cons.mp h1 with h2 | h2
      · exact h.stack_keys (c :: cs) (List.mem_cons_self _ _) w
          (List.mem_cons_of_mem _ (h2 ▸ hw))
      · exact h.stack_keys t (List.mem_cons_of_mem _ h2) w hw
  · intro t ht w hw
    rcases List.mem_cons.mp ht with h1 | h1
    · subst h1
      exact Reach.step hreach_c (hld ▸ hw)
    · rcases List.mem_cons.mp h1 with h2 | h2
      · exact h.stack_reach (c :: cs) (List.mem_cons_self _ _) w
          (List.mem_cons_of_mem _ (h2 ▸ hw))
      · exact h.stack_reach t (List.mem_cons_of_mem _ h2) w hw
  · intro w hw x hx
    rcases List.mem_cons.mp hw with h1 | h1
    · subst h1
      exact Or.inr ⟨l, List.mem_cons_self _ _, hld ▸ hx⟩
    · rcases h.closure w h1 x hx with hc1 | ⟨t, ht, hxt⟩
      · exact Or.inl (List.mem_cons_of_mem _ hc1)
      · rcases List.mem_cons.mp ht with h2 | h2
        · subst h2
          rcases List.mem_cons.mp hxt with h3 | h3
          · subst h3; exact Or.inl (List.mem_cons_self _ _)
          · exact Or.inr ⟨cs, List.mem_cons_of_mem _ (List.mem_cons_self _ _), h3⟩
        · exact Or.inr ⟨t, List.mem_cons_of_mem _ (List.mem_cons_of_mem _ h2), hxt⟩

theorem dfsRun_completes {adj : AdjList} {start : String}
    (hclosed : ∀ v w, w ∈ lookupD adj v → isKey adj w = true) :
    ∀ (n : Nat) (s : DfsState), DfsInv adj start s → dfsMeasure adj s ≤ n →
    ∃ s', dfsRun adj n s = Except.ok s' ∧ s'.stack = [] ∧ DfsInv adj start s' := by
  intro n
  induction n with
  | zero =>
    intro s hinv hm
    have hw : stackWeight s.stack = 0 := by
      unfold dfsMeasure at hm
      omega
    exact ⟨s, rfl, stackWeight_eq_zero hw, hinv⟩
  | succ n ih =>
    intro s hinv hm
    obtain ⟨seen, stack, out⟩ := s
    cases stack with
    | nil => exact ⟨_, by simp [dfsRun], rfl, hinv⟩
    | cons top rest =>
      cases top with
      | nil =>
        have hinv' := dfsInv_pop hinv
        have hlt : dfsMeasure adj (DfsState.mk seen rest out) <
            dfsMeasure adj (DfsState.mk seen ([] :: rest) out) := by
          unfold dfsMeasure
          have hsw : stackWeight ([] :: rest) = 0 + 1 + stackWeight rest := rfl
          simp only
          omega
        obtain ⟨s', hs', hst, hi⟩ := ih _ hinv' (by simp only [dfsMeasure] at hm hlt ⊢; omega)
        refine ⟨s', ?_, hst, hi⟩
        simpa only [dfsRun] using hs'
      | cons c cs =>
        by_cases hc : c ∈ seen
        · have hinv' := dfsInv_skip hinv hc
          have hlt : dfsMeasure adj (DfsState.mk seen (cs :: rest) out) <
              dfsMeasure adj (DfsState.mk seen ((c :: cs) :: rest) out) := by
            unfold dfsMeasure
            have h1 : stackWeight (cs :: rest) = cs.length + 1 + stackWeight rest := rfl
            have h2 : stackWeight ((c :: cs) :: rest) =
                (cs.length + 1) + 1 + stackWeight rest := rfl
            simp only
            omega
          obtain ⟨s', hs', hst, hi⟩ := ih _ hinv' (by omega)
          refine ⟨s', ?_, hst, hi⟩
          have heq : dfsRun adj (n + 1) (DfsState.mk seen ((c :: cs) :: rest) out) =
              dfsRun adj n (DfsState.mk seen (cs :: rest) out) := by
            simp [dfsRun, hc]
          rw [heq]
          exact hs'
        · have hkey : isKey adj c = true :=
            hinv.stack_keys (c :: cs) (List.mem_cons_self _ _) c (List.mem_cons_self _ _)
          obtain ⟨l, hl⟩ := isKey_true_iff.mp hkey
          have hinv' := dfsInv_visit hclosed hinv hc hl
          have hlt : dfsMeasure adj (DfsState.mk (c :: seen) (l :: cs :: rest) (out ++ [c])) <
              dfsMeasure adj (DfsState.mk seen ((c :: cs) :: rest) out) := by
            unfold dfsMeasure
            simp only
            have h1 : stackWeight (l :: cs :: rest) =
                (stackWeight ((c :: cs) :: rest)) + l.length := by
              have ha : stackWeight (l :: cs :: rest) =
                  l.length + 1 + (cs.length + 1 + stackWeight rest) := rfl
              have hb : stackWeight ((c :: cs) :: rest) =
                  (cs.length + 1) + 1 + stackWeight rest := rfl
              omega
            rw [h1]
            have h2 := unseenCount_lt hkey hc
            have h3 := lookupA_length_le_maxValLen hl
            have h4 := measure_key (unseenCount adj (c :: seen)) (unseenCount adj seen)
              (maxValLen adj) l.length (stackWeight ((c :: cs) :: rest)) h2 h3
            omega
          obtain ⟨s', hs', hst, hi⟩ := ih _ hinv' (by omega)
          refine ⟨s', ?_, hst, hi⟩
          have heq : dfsRun adj (n + 1) (DfsState.mk seen ((c :: cs) :: rest) out) =
              dfsRun adj n (DfsState.mk (c :: seen) (l :: cs :: rest) (out ++ [c])) := by
            simp [dfsRun, hc, hl]
          rw [heq]
          exact hs'

theorem dfs_main {adj : AdjList} {start : String}
    (hclosed : ∀ v w, w ∈ lookupD adj v → isKey adj w = true)
    (hs : isKey adj start = true) :
    ∃ fuel s', ccFrom adj start fuel = Except.ok s' ∧ s'.stack = [] ∧ s'.out.Nodup ∧
      (∀ w, w ∈ s'.out ↔ (Reach adj start w ∧ w ≠ start)) := by
  obtain ⟨l0, hl0⟩ := isKey_true_iff.mp hs
  have hinv0 : DfsInv adj start (DfsState.mk [start] [l0] []) := by
    refine ⟨by simp, by simp, ?_, ?_, ?_, ?_, ?_⟩
    · intro w hw
      rcases List.mem_cons.mp hw with h1 | h1
      · rw [h1]; exact Reach.refl start
      · simp at h1
    · intro w hw
      rcases List.mem_cons.mp hw with h1 | h1
      · subst h1; exact hs
      · simp at h1
    · intro t ht w hw
      rcases List.mem_cons.mp ht with h1 | h1
      · subst h1
        exact hclosed start w (lookupD_eq hl0 ▸ hw)
      · simp at h1
    · intro t ht w hw
      rcases List.mem_cons.mp ht with h1 | h1
      · subst h1
        exact Reach.step (Reach.refl start) (lookupD_eq hl0 ▸ hw)
      · simp at h1
    · intro w hw x hx
      rcases List.mem_cons.mp hw with h1 | h1
      · subst h1
        exact Or.inr ⟨l0, List.mem_cons_self _ _, lookupD_eq hl0 ▸ hx⟩
      · simp at h1
  obtain ⟨s', hrun, hst, hinv⟩ :=
    dfsRun_completes hclosed (dfsMeasure adj (DfsState.mk [start] [l0] []))
      (DfsState.mk [start] [l0] []) hinv0 le_rfl
  refine ⟨dfsMeasure adj (DfsState.mk [start] [l0] []), s', ?_, hst, ?_, ?_⟩
  · unfold ccFrom
    rw [hl0]
    exact hrun
  · have hnd := hinv.seen_nodup
    rw [hinv.seen_eq] at hnd
    have := (List.nodup_append.mp hnd).1
    exact List.nodup_reverse.mp this
  · have hnd := hinv.seen_nodup
    rw [hinv.seen_eq] at hnd
    have hdisj := (List.nodup_append.mp hnd).2.2
    have hstart_not_out : ¬ start ∈ s'.out := by
      intro hco
      exact hdisj (List.mem_reverse.mpr hco) (List.mem_cons_self _ _)
    have hclosure : ∀ a ∈ s'.seen, ∀ x ∈ lookupD adj a, x ∈ s'.seen := by
      intro a ha x hx
      rcases hinv.closure a ha x hx with hc | ⟨t, ht, _⟩
      · exact hc
      · rw [hst] at ht
        simp at ht
    intro w
    constructor
    · intro hw
      have hwseen : w ∈ s'.seen := by
        rw [hinv.seen_eq]
        exact List.mem_append.mpr (Or.inl (List.mem_reverse.mpr hw))
      refine ⟨hinv.seen_reach w hwseen, ?_⟩
      intro he
      subst he
      exact hstart_not_out hw
    · intro ⟨hr, hne⟩
      have hwseen : w ∈ s'.seen := by
        clear hne
        induction hr with
        | refl =>
          rw [hinv.seen_eq]
          exact List.mem_append.mpr (Or.inr (List.mem_cons_self _ _))
        | step hprev hmem ih => exact hclosure _ ih _ hmem
      rw [hinv.seen_eq] at hwseen
      rcases List.mem_append.mp hwseen with h1 | h1
      · exact List.mem_reverse.mp h1
      · rcases List.mem_cons.mp h1 with h2 | h2
        · exact absurd h2 hne
        · simp at h2

/-! ## Claim theorems -/

/-- C7: `update(v, P)` where `P` is set-equal to the current parent set of
`v` (the empty set when `v` is not a key) is a no-op: the `new_parents !=
old_parents` guard fails, the graph is returned unchanged and no error is
raised. -/
theorem update_idempotent_noop (g : DepGraph) (v : String) (newP : List String)
    (h : eqAsSet newP (lookupD g.parents v) = true) : update g v newP = (g, true) :=
  update_noop h

/-- Witness for C7 at the two-cycle graph: updating a with its current
parent set {b} returns the graph unchanged. -/
theorem update_idempotent_noop_witness :
    eqAsSet ["b"] (lookupD gCyc.parents ("a")) = true ∧
    update gCyc ("a") ["b"] = (gCyc, true) :=
  ⟨by decide, update_idempotent_noop gCyc ("a") ["b"] (by decide)⟩

/-- C9: starting a traversal from a vertex that is not a key of the
adjacency dict being followed fails with a `KeyError` on that vertex
(raised by `iter(adjacency[start])`), in either direction, rather than
yielding an empty sequence. -/
theorem traversal_unknown_start_keyerror :
    (∀ (g : DepGraph) (start : String) (fuel : Nat), isKey g.children start = false →
      connectedComponents g ("descendants") start fuel =
        Except.error (PyErr.keyError start)) ∧
    (∀ (g : DepGraph) (start : String) (fuel : Nat), isKey g.parents start = false →
      connectedComponents g ("ancestors") start fuel =
        Except.error (PyErr.keyError start)) := by
  constructor
  · intro g start fuel h
    have hl : lookupA g.children start = none := by
      unfold isKey at h
      cases hl : lookupA g.children start with
      | none => rfl
      | some s => rw [hl] at h; simp at h
    unfold connectedComponents
    rw [if_pos rfl]
    unfold ccFrom
    rw [hl]
  · intro g start fuel h
    have hl : lookupA g.parents start = none := by
      unfold isKey at h
      cases hl : lookupA g.parents start with
      | none => rfl
      | some s => rw [hl] at h; simp at h
    unfold connectedComponents
    rw [if_neg (by decide), if_pos rfl]
    unfold ccFrom
    rw [hl]

/-- Witness for C9: the vertex zzz is unknown to the two-cycle graph, and
both traversal directions raise `KeyError` on it. -/
theorem traversal_unknown_start_keyerror_witness :
    isKey gCyc.children ("zzz") = false ∧
    connectedComponents gCyc ("descendants") ("zzz") 3 =
      Except.error (PyErr.keyError ("zzz")) ∧
    connectedComponents gCyc ("ancestors") ("zzz") 3 =
      Except.error (PyErr.keyError ("zzz")) :=
  ⟨by decide, traversal_unknown_start_keyerror.1 gCyc ("zzz") 3 (by decide),
    traversal_unknown_start_keyerror.2 gCyc ("zzz") 3 (by decide)⟩

/-- C10: `is_static` and `is_data` test a plain character-string prefix of
the whole relative path, not containment in a directory: any filename that
starts (as a string) with a configured prefix satisfies the predicate,
even when the prefix is not followed by a path separator; when such a file
has no underscore or dot segment, the classification precedence then
assigns it the static role. -/
theorem static_data_plain_string_prefixes :
    (∀ (cfg : SJConfig) (f p : String) (l : List String), cfg.staticpaths = some l →
      p ∈ l → strStarts f p = true → isStaticFile cfg f = true) ∧
    (∀ (cfg : SJConfig) (f p : String) (l : List String), cfg.datapaths = some l →
      p ∈ l → strStarts f p = true → isDataFile cfg f = true) ∧
    (∀ (cfg : SJConfig) (f p : String) (l : List String), cfg.staticpaths = some l →
      p ∈ l → strStarts f p = true → isPartialFile f = false → isIgnoredFile f = false →
      classify cfg f = Role.rStatic) := by
  refine ⟨?_, ?_, ?_⟩
  · intro cfg f p l hc hp hs
    simp only [isStaticFile, hc]
    rw [List.any_eq_true]
    exact ⟨p, hp, hs⟩
  · intro cfg f p l hc hp hs
    simp only [isDataFile, hc]
    rw [List.any_eq_true]
    exact ⟨p, hp, hs⟩
  · intro cfg f p l hc hp hs hpart hign
    have hst : isStaticFile cfg f = true := by
      simp only [isStaticFile, hc]
      rw [List.any_eq_true]
      exact ⟨p, hp, hs⟩
    simp [classify, hpart, hign, hst]

/-- Witness for C10: with static prefix static and data prefix data, the
files staticextra.png and dataextra.json match as plain string prefixes
although neither lies inside the corresponding directory. -/
theorem static_data_plain_string_prefixes_witness :
    isStaticFile cfgBoth ("staticextra.png") = true ∧
    isDataFile cfgBoth ("dataextra.json") = true ∧
    classify cfgBoth ("staticextra.png") = Role.rStatic :=
  ⟨static_data_plain_string_prefixes.1 cfgBoth ("staticextra.png") ("static")
      ["static"] rfl (by decide) (by decide),
    static_data_plain_string_prefixes.2.1 cfgBoth ("dataextra.json") ("data")
      ["data"] rfl (by decide) (by decide),
    static_data_plain_string_prefixes.2.2 cfgBoth ("staticextra.png") ("static")
      ["static"] rfl (by decide) (by decide) (by decide) (by decide)⟩

/-- C8 counterexample: `connected_components` is a generator function, so
calling it with the invalid direction up does not raise at the point of
the call — it returns a generator object holding the unvalidated
arguments; the `ValueError` surfaces only when the generator is first
iterated. -/
theorem traversal_direction_lazy_cex :
    mkConnectedComponents ("up") ("a") = CCGen.mk ("up") ("a") ∧
    consumeCC gCyc (mkConnectedComponents ("up") ("a")) 5 =
      Except.error PyErr.valueError :=
  ⟨rfl, by decide⟩

/-- C8 (amended): a direction other than descendants or ancestors is never
silently defaulted: iterating the returned generator raises `ValueError`,
for every such direction, before any traversal output is produced — but
the error is raised at first iteration, not at the point of the call. -/
theorem traversal_bad_direction_valueerror (g : DepGraph) (dir start : String)
    (fuel : Nat) (h1 : dir ≠ "descendants") (h2 : dir ≠ "ancestors") :
    consumeCC g (mkConnectedComponents dir start) fuel =
      Except.error PyErr.valueError := by
  simp [consumeCC, mkConnectedComponents, connectedComponents, h1, h2]

/-- Witness for C8 at the direction sideways. -/
theorem traversal_bad_direction_valueerror_witness :
    consumeCC gCyc (mkConnectedComponents ("sideways") ("a")) 7 =
      Except.error PyErr.valueError :=
  traversal_bad_direction_valueerror gCyc ("sideways") ("a") 7 (by decide) (by decide)

/-- C1 counterexample: on the graph built from a single vertex a, the
call `update(b, {c})` does not succeed: the gained-parent loop evaluates
`children[c]` and c is not a key, so a `KeyError` escapes — `update` does
not treat unseen members of `newParents` as newly created vertices. -/
theorem update_unseen_parent_keyerror_cex :
    fromParents [("a", [])] = some gOne ∧ (update gOne ("b") ["c"]).2 = false :=
  ⟨by decide, by decide⟩

/-- C1 (amended): `update` tolerates an unseen vertex `v` itself (its old
parent set defaults to empty via `parents.get`), succeeding whenever every
member of `newParents` is already a key of `children`; but a member of
`newParents` that is not a key of `children` (and not already a parent)
makes the call fail, and no empty `children` entry is ever created — even
a successful update on an unseen `v` adds `v` as a key of `parents` only,
leaving the `children` keys unchanged. -/
theorem update_graceful_growth_amended :
    (∀ (g : DepGraph) (v : String) (newP : List String), isKey g.parents v = false →
      (∀ p ∈ newP, isKey g.children p = true) → (update g v newP).2 = true) ∧
    (∀ (g : DepGraph) (v : String) (newP : List String) (p0 : String), p0 ∈ newP →
      ¬ p0 ∈ lookupD g.parents v → isKey g.children p0 = false →
      eqAsSet newP (lookupD g.parents v) = false → (update g v newP).2 = false) ∧
    (∀ (g : DepGraph) (v : String) (newP : List String),
      eqAsSet newP (lookupD g.parents v) = false → (update g v newP).2 = true →
      isKey (update g v newP).1.parents v = true ∧
      isKey (update g v newP).1.children v = isKey g.children v) := by
  refine ⟨?_, ?_, ?_⟩
  · intro g v newP hv hkeys
    by_cases he : eqAsSet newP (lookupD g.parents v) = true
    · rw [update_noop he]
    · rcases update_result_cases g v newP with ⟨he', _⟩ | ⟨_, ch1, b1, hr, hrest⟩
      · exact absurd he' he
      · have hold : lookupD g.parents v = [] := lookupD_of_not_key hv
        rw [hold] at hr
        have hr' : (g.children, true) = (ch1, b1) := by
          rw [← hr]
          rfl
        injection hr' with hch1 hb1
        rcases hrest with ⟨hb1', hu⟩ | ⟨_, ch2, b2, ha, hrest⟩
        · rw [hb1'] at hb1
          exact Bool.noConfusion hb1
        · have hok : (addAllM ch1 v
              (newP.filter (fun p => decide (¬ p ∈ lookupD g.parents v)))).2 = true := by
            apply addAllM_ok_of_keys
            intro d hd
            rw [← hch1]
            exact hkeys d (List.mem_filter.mp hd).1
          rw [ha] at hok
          rcases hrest with ⟨hb2, hu⟩ | ⟨_, hu⟩
          · rw [hb2] at hok
            exact Bool.noConfusion hok
          · rw [hu]
  · intro g v newP p0 hp0 hnot hkey he
    rcases update_result_cases g v newP with ⟨he', _⟩ | ⟨_, ch1, b1, hr, hrest⟩
    · rw [he'] at he
      exact Bool.noConfusion he
    · rcases hrest with ⟨_, hu⟩ | ⟨hb1, ch2, b2, ha, hrest⟩
      · rw [hu]
      · have hp0g : p0 ∈ newP.filter (fun p => decide (¬ p ∈ lookupD g.parents v)) := by
          simp [List.mem_filter, hp0, hnot]
        have hkey1 : isKey ch1 p0 = false := by
          have hk := isKey_removeAllM g.children v
            ((lookupD g.parents v).filter (fun p => decide (¬ p ∈ newP))) p0
          rw [hr] at hk
          rw [hk]
          exact hkey
        have hfail := @addAllM_false_of ch1 v
          (newP.filter (fun p => decide (¬ p ∈ lookupD g.parents v))) p0 hp0g hkey1
        rw [ha] at hfail
        rcases hrest with ⟨_, hu⟩ | ⟨hb2, _⟩
        · rw [hu]
        · rw [hb2] at hfail
          exact Bool.noConfusion hfail
  · intro g v newP he hsucc
    have h : update g v newP = ((update g v newP).1, true) := by
      rw [← hsucc]
    rcases update_success_cases h with ⟨he', _⟩ | ⟨_, ch1, ch2, hr, ha, hg⟩
    · rw [he'] at he
      exact Bool.noConfusion he
    · constructor
      · rw [hg]
        show isKey (setValA g.parents v newP) v = true
        rw [isKey_setValA]
        simp
      · exact update_keys_children g v newP v

/-- Witness for C1 (amended) on the one-vertex graph: adding unseen b with
known parent a succeeds; adding unseen b with unknown parent c fails; and
the successful call creates a `parents` key for b but no `children` key. -/
theorem update_graceful_growth_amended_witness :
    (update gOne ("b") ["a"]).2 = true ∧
    (update gOne ("b") ["c"]).2 = false ∧
    (isKey (update gOne ("b") ["a"]).1.parents ("b") = true ∧
      isKey (update gOne ("b") ["a"]).1.children ("b") = isKey gOne.children ("b")) :=
  ⟨update_graceful_growth_amended.1 gOne ("b") ["a"] (by decide) (by decide),
    update_graceful_growth_amended.2.1 gOne ("b") ["c"] ("c") (by decide) (by decide)
      (by decide) (by decide),
    update_graceful_growth_amended.2.2 gOne ("b") ["a"] (by decide) (by decide)⟩

/-- C2 counterexample: on the graph f → a built by `from_parents`, the
failing call `update(f, {c})` (c unknown) first removes f from
`children[a]` and only then hits the `KeyError`; the exception leaves the
graph changed, so a failed update is not all-or-nothing. -/
theorem update_failure_partial_mutation_cex :
    fromParents [("f", ["a"]), ("a", [])] = some gFA ∧
    (update gFA ("f") ["c"]).2 = false ∧
    (update gFA ("f") ["c"]).1 ≠ gFA :=
  ⟨by decide, by decide, by decide⟩

/-- C2 (amended): when `update` fails, the `parents` mapping is left
exactly as it was (the `parents[v] = newParents` assignment is the last
step and is never reached), but the `children` mapping may keep the edge
removals and additions performed before the failing operation. -/
theorem update_failure_parents_unchanged (g : DepGraph) (v : String)
    (newP : List String) (g' : DepGraph) (h : update g v newP = (g', false)) :
    g'.parents = g.parents :=
  update_fail_parents h

/-- Witness for C2 (amended) at the failing update of the counterexample:
the post-failure graph has mutated children but identical parents. -/
theorem update_failure_parents_unchanged_witness :
    update gFA ("f") ["c"] =
      (DepGraph.mk [("f", ["a"]), ("a", [])] [("f", []), ("a", [])], false) ∧
    (DepGraph.mk [("f", ["a"]), ("a", [])] [("f", []), ("a", [])]).parents =
      gFA.parents :=
  ⟨by decide,
    update_failure_parents_unchanged gFA ("f") ["c"]
      (DepGraph.mk [("f", ["a"]), ("a", [])] [("f", []), ("a", [])]) (by decide)⟩

/-- C3 counterexample: after a successful build of the one-vertex graph a,
the successful call `update(b, {a})` makes b a key of `parents` without
making it a key of `children`: invariant I2 is broken by a successful
update on an unseen vertex (both the entry-wise and the lookup-wise
formulations fail). -/
theorem update_unseen_vertex_breaks_I2_cex :
    fromParents [("a", [])] = some gOne ∧
    (update gOne ("b") ["a"]).2 = true ∧
    ¬ I2D (update gOne ("b") ["a"]).1 ∧
    ¬ I2F (update gOne ("b") ["a"]).1 := by
  refine ⟨by decide, by decide, by decide, ?_⟩
  intro h
  have h1 := h.1 ("b")
  rw [show isKey (update gOne ("b") ["a"]).1.parents ("b") = true from by decide] at h1
  rw [show isKey (update gOne ("b") ["a"]).1.children ("b") = false from by decide] at h1
  exact Bool.noConfusion h1

/-- C3 (amended): starting from a successful build with duplicate-free
keys, every sequence of successful updates preserves I1 (for all vertices
u, v: u ∈ parents[v] iff v ∈ children[u]); it also preserves I2 provided
every update names a vertex that is already a key of `parents` when it is
applied — without that proviso a successful update can break I2. -/
theorem build_update_preserve_invariants (ps us : List (String × List String))
    (g gfin : DepGraph) (hn : keysNodup ps) (hb : fromParents ps = some g)
    (hrun : applyUpdates g us = (gfin, true)) :
    I1F gfin ∧ (allKnownB g us = true → I2F gfin) := by
  have h1 := I1F_fromParents hn hb
  have h2 := I2F_fromParents hb
  obtain ⟨hf1, hf2⟩ := applyUpdates_invariants h1 hrun
  exact ⟨hf1, fun hak => hf2 h2 hak⟩

/-- Witness for C3 (amended): build a → b, clear a's parents, restore
them; all updates name known vertices and both invariants hold at the
end. -/
theorem build_update_preserve_invariants_witness :
    keysNodup [("a", ["b"]), ("b", [])] ∧
    I1F (applyUpdates gAB usAB).1 ∧
    (allKnownB gAB usAB = true → I2F (applyUpdates gAB usAB).1) := by
  refine ⟨by decide, ?_, ?_⟩
  · exact (build_update_preserve_invariants [("a", ["b"]), ("b", [])] usAB gAB
      (applyUpdates gAB usAB).1 (by decide) (by decide) (by decide)).1
  · exact (build_update_preserve_invariants [("a", ["b"]), ("b", [])] usAB gAB
      (applyUpdates gAB usAB).1 (by decide) (by decide) (by decide)).2

/-- C4: on a graph satisfying I1 and I2, for any known start vertex the
descendants traversal terminates (some fuel makes the explicit stack
empty) and yields exactly the vertices reachable from start along
`children` edges, excluding start itself, each exactly once — also on
cyclic graphs and self-loops, since the visited set is seeded with start. -/
theorem descendants_reachability_correct (g : DepGraph) (start : String)
    (_h1 : I1D g) (h2 : I2D g) (hs : isKey g.children start = true) :
    ∃ fuel s', getDescendants g start fuel = Except.ok s' ∧ s'.stack = [] ∧
      s'.out.Nodup ∧ (∀ w, w ∈ s'.out ↔ (Reach g.children start w ∧ w ≠ start)) := by
  have hclosed : ∀ v w, w ∈ lookupD g.children v → isKey g.children w = true := by
    intro v w hw
    obtain ⟨s, hsv, hws⟩ := mem_lookupD hw
    exact h2.2.2.2 (v, s) (lookupA_mem hsv) w hws
  obtain ⟨fuel, s', hcc, hst, hnd, hmem⟩ := dfs_main hclosed hs
  refine ⟨fuel, s', ?_, hst, hnd, hmem⟩
  unfold getDescendants connectedComponents
  rw [if_pos rfl]
  exact hcc

/-- Witness for C4 at the two-cycle a ↔ b: the hypotheses hold and the
traversal from a yields exactly the reachable set minus a, that is {b}. -/
theorem descendants_reachability_correct_witness :
    I1D gCyc ∧ I2D gCyc ∧ isKey gCyc.children ("a") = true ∧
    (∃ fuel s', getDescendants gCyc ("a") fuel = Except.ok s' ∧ s'.stack = [] ∧
      s'.out.Nodup ∧
      (∀ w, w ∈ s'.out ↔ (Reach gCyc.children ("a") w ∧ w ≠ ("a")))) :=
  ⟨by decide, by decide, by decide,
    descendants_reachability_correct gCyc ("a") (by decide) (by decide) (by decide)⟩

/-- C5 counterexample: with static path list [_st], the path _st/x is
classified partial by the stated precedence (partial > static), yet the
reactor, which tests `is_static` first, copies it as a static file — the
classification precedence does not govern the reactor's treatment. -/
theorem reactor_precedence_cex :
    classify cfgUStatic ("_st/x") = Role.rPartial ∧
    eventBranch cfgUStatic ("_st/x") = EventBranch.copyStatic ∧
    eventBranch cfgUStatic ("_st/x") ≠ claimedBranch (classify cfgUStatic ("_st/x")) :=
  ⟨by decide, by decide, by decide⟩

/-- C5 (amended): exactly one of the five roles holds for every path and
configuration, under the strict precedence partial > ignored > static >
data > template, and `is_template` is exactly the fallback of that
precedence; the reactor, however, dispatches static-first then
ignored-first, so its treatment agrees with the classified role only for
paths that are not both static and partial-or-ignored and not both
partial and ignored; whenever `is_static` holds the reactor copies. -/
theorem classification_partition_amended (cfg : SJConfig) (f : String) :
    (classify cfg f = Role.rPartial ↔ isPartialFile f = true) ∧
    (classify cfg f = Role.rIgnored ↔
      (isPartialFile f = false ∧ isIgnoredFile f = true)) ∧
    (classify cfg f = Role.rStatic ↔
      (isPartialFile f = false ∧ isIgnoredFile f = false ∧ isStaticFile cfg f = true)) ∧
    (classify cfg f = Role.rData ↔
      (isPartialFile f = false ∧ isIgnoredFile f = false ∧ isStaticFile cfg f = false ∧
        isDataFile cfg f = true)) ∧
    (classify cfg f = Role.rTemplate ↔ isTemplateFile cfg f = true) ∧
    (((isPartialFile f || isIgnoredFile f) && isStaticFile cfg f) = false →
      (isPartialFile f && isIgnoredFile f) = false →
      eventBranch cfg f = claimedBranch (classify cfg f)) ∧
    (isStaticFile cfg f = true → eventBranch cfg f = EventBranch.copyStatic) := by
  cases hp : isPartialFile f <;> cases hi : isIgnoredFile f <;>
    cases hst : isStaticFile cfg f <;> cases hd : isDataFile cfg f <;>
    simp [classify, isTemplateFile, eventBranch, claimedBranch, hp, hi, hst, hd]

/-- Witness for C5 (amended): for the ordinary template path page.html
under the static/data configuration, the reactor's branch agrees with the
branch the classified role dictates. -/
theorem classification_partition_amended_witness :
    eventBranch cfgBoth ("page.html") = claimedBranch (classify cfgBoth ("page.html")) :=
  (classification_partition_amended cfgBoth ("page.html")).2.2.2.2.2.1
    (by decide) (by decide)

/-- C6 counterexample: for the partial _p1 of the chain page → _p2 → _p1,
`get_dependencies` returns the raw descendants {_p2, page}, which contains
the non-template _p2 — the claimed filtering to templates does not happen
inside `get_dependencies`; it is the reactor's `needs_rendering` that
filters, yielding {page}. -/
theorem get_dependencies_unfiltered_cex :
    getDependencies cfgData gChain ("_p1") 20 = Except.ok ["_p2", "page"] ∧
    isTemplateFile cfgData ("_p2") = false ∧
    needsRendering cfgData gChain ("_p1") 20 = Except.ok ["page"] :=
  ⟨by decide, by decide, by decide⟩

/-- C6 (amended): `get_dependencies` returns the singleton for a template;
for a partial or data file it returns the unfiltered descendants of the
vertex (exactly the vertices reachable along `children` edges, excluding
the vertex, possibly including non-templates), and the reactor's
`needs_rendering` then filters that list to templates; for a static file
it returns the singleton, and the empty list otherwise. -/
theorem get_dependencies_amended :
    (∀ (cfg : SJConfig) (g : DepGraph) (f : String) (fuel : Nat),
      isTemplateFile cfg f = true → getDependencies cfg g f fuel = Except.ok [f]) ∧
    (∀ (cfg : SJConfig) (g : DepGraph) (f : String),
      isTemplateFile cfg f = false → (isPartialFile f || isDataFile cfg f) = true →
      I2D g → isKey g.children f = true →
      ∃ fuel out, getDependencies cfg g f fuel = Except.ok out ∧ out.Nodup ∧
        (∀ w, w ∈ out ↔ (Reach g.children f w ∧ w ≠ f)) ∧
        needsRendering cfg g f fuel =
          Except.ok (out.filter (fun x => isTemplateFile cfg x))) ∧
    (∀ (cfg : SJConfig) (g : DepGraph) (f : String) (fuel : Nat),
      isTemplateFile cfg f = false → (isPartialFile f || isDataFile cfg f) = false →
      isStaticFile cfg f = true → getDependencies cfg g f fuel = Except.ok [f]) ∧
    (∀ (cfg : SJConfig) (g : DepGraph) (f : String) (fuel : Nat),
      isTemplateFile cfg f = false → (isPartialFile f || isDataFile cfg f) = false →
      isStaticFile cfg f = false → getDependencies cfg g f fuel = Except.ok []) := by
  refine ⟨?_, ?_, ?_, ?_⟩
  · intro cfg g f fuel ht
    simp [getDependencies, ht]
  · intro cfg g f ht hpd h2 hkey
    have hclosed : ∀ v w, w ∈ lookupD g.children v → isKey g.children w = true := by
      intro v w hw
      obtain ⟨s, hsv, hws⟩ := mem_lookupD hw
      exact h2.2.2.2 (v, s) (lookupA_mem hsv) w hws
    obtain ⟨fuel, s', hcc, hst, hnd, hmem⟩ := dfs_main hclosed hkey
    have hdesc : getDescendants g f fuel = Except.ok s' := by
      unfold getDescendants connectedComponents
      rw [if_pos rfl]
      exact hcc
    have hgd : getDependencies cfg g f fuel = Except.ok s'.out := by
      simp [getDependencies, ht, hpd, hdesc, Except.map]
    have hnr : needsRendering cfg g f fuel =
        Except.ok (s'.out.filter (fun x => isTemplateFile cfg x)) := by
      simp [needsRendering, ht, hgd, Except.map]
    exact ⟨fuel, s'.out, hgd, hnd, hmem, hnr⟩
  · intro cfg g f fuel ht hpd hst
    simp [getDependencies, ht, hpd, hst]
  · intro cfg g f fuel ht hpd hst
    simp [getDependencies, ht, hpd, hst]

/-- Witness for C6 (amended) at the chain graph and its partial _p1. -/
theorem get_dependencies_amended_witness :
    ∃ fuel out, getDependencies cfgData gChain ("_p1") fuel = Except.ok out ∧
      out.Nodup ∧
      (∀ w, w ∈ out ↔ (Reach gChain.children ("_p1") w ∧ w ≠ ("_p1"))) ∧
      needsRendering cfgData gChain ("_p1") fuel =
        Except.ok (out.filter (fun x => isTemplateFile cfgData x)) :=
  get_dependencies_amended.2.1 cfgData gChain ("_p1") (by decide) (by decide)
    (by decide) (by decide)

end StaticJinja
